import Mathlib

/-
Verification of the ticket-state projection and analytics engine of the
jira-manager-pro repository.

The JavaScript source is shallowly embedded: strings are Lean `String`
(a wrapper around `List Char`), JS objects whose keys carry insertion
order are association lists, numbers appearing in the analytics
computations are modelled as exact rationals, and fallible operations
return `Option`.  The JS standard-library routines the source leans on
(`String.prototype.split`, the bracket-extraction regex, `trim`,
`toLowerCase`, `localeCompare`) are modelled explicitly below; every
model is written to be kernel-computable so concrete runs can be
checked with `decide`.
-/

namespace JiraManager

/-- Whitespace as matched by JS `trim` and the regex class `\s`,
restricted to the ASCII range that the ticket encodings use. -/
def isWsJS (c : Char) : Bool :=
  c == ' ' || c == '\t' || c == '\n' || c == '\r' || c == '\x0b' || c == '\x0c'

/-- Model of `String.prototype.trim` on the character list. -/
def trimChars (l : List Char) : List Char :=
  ((l.dropWhile isWsJS).reverse.dropWhile isWsJS).reverse

/-- Splits a character list at the first occurrence of the two-character
separator `": "`; returns the text before and after it, or `none` when
the separator does not occur.  This models exactly the part of
JS `split` on `": "` that `parseTicketInfo` consumes: `parts[0]` and the
tail after the first separator. -/
def splitFirst : List Char → Option (List Char × List Char)
  | [] => none
  | c :: t =>
    if c == ':' && t.head? == some ' ' then some ([], t.tail)
    else (splitFirst t).map (fun p => (c :: p.1, p.2))

/-- Whether `": "` occurs in the list; `parts.length >= 2` for
JS `split` on `": "` is equivalent to this. -/
def hasColonSpace : List Char → Bool
  | [] => false
  | c :: t => (c == ':' && t.head? == some ' ') || hasColonSpace t

/-- Model of `parts[1]` of JS `split`: the text between the first separator
and the next one (or to the end if there is no further separator).
The argument is the text that follows the first separator. -/
def restPart (r : List Char) : List Char :=
  match splitFirst r with
  | some (a, _) => a
  | none => r

/-- Model of the global regex loop `/\[([^\]]+)\]/g` over the remainder:
collects the non-empty contents of each bracketed group, in order.
The second argument is `none` while scanning for `[` and `some acc`
(with the reversed content so far) inside a group. -/
def scanB : List Char → Option (List Char) → List (List Char)
  | [], _ => []
  | c :: t, none => if c == '[' then scanB t (some []) else scanB t none
  | c :: t, some acc =>
    if c == ']' then
      if acc.isEmpty then scanB t none else acc.reverse :: scanB t none
    else scanB t (some (c :: acc))

/-- After skipping whitespace, is the next character `[`?  This is the
success condition of the lazy regex `^(.+?)\s*\[` for a fixed prefix
length: the lazy group stops exactly at the first position from which
skipping whitespace lands on `[`. -/
def firstNonWsBracket (l : List Char) : Bool :=
  (l.dropWhile isWsJS).head? == some '['

/-- Offset (from the start of the list) of the first position from which
skipping whitespace lands on `[`. -/
def findK : List Char → Option Nat
  | [] => none
  | c :: t =>
    if firstNonWsBracket (c :: t) then some 0
    else (findK t).map (· + 1)

/-- Model of `rest.match(/^(.+?)\s*\[/)` followed by
`summaryMatch ? summaryMatch[1].trim() : rest.trim()`: the summary is
the shortest non-empty prefix after which only whitespace precedes a
`[`, trimmed; when no such prefix exists the whole remainder trimmed. -/
def summaryOf (rest : List Char) : String :=
  match rest with
  | [] => (trimChars rest).asString
  | _ :: t =>
    match findK t with
    | some j => (trimChars (rest.take (j + 1))).asString
    | none => (trimChars rest).asString

/-- The typed record produced by decoding one compact ticket string. -/
structure TicketRecord where
  key : String
  summary : String
  assignee : String
  issueType : String
  priority : String
deriving DecidableEq

/-- Embedding of the assignee mapping: the sentinel "Unassigned" is
rendered as "Non assigné", any other group is kept. -/
def assigneeOf (b : List Char) : String :=
  if b.asString = "Unassigned" then "Non assigné" else b.asString

/-- Embedding of the priority default: an empty group (falsy in JS)
falls back to "Medium". -/
def priorityOf (b : List Char) : String :=
  if b.asString = "" then "Medium" else b.asString

/-- Embedding of `parseTicketInfo` from src/jira_project/src/project.jsx.
JS `split` cuts at every occurrence of `": "`, so the remainder the code
works on is the text between the first and second separators. -/
def parseTicketInfo (s : String) : Option TicketRecord :=
  match splitFirst s.data with
  | none => none
  | some (p0, r) =>
    let key := (trimChars p0).asString
    let rest := restPart r
    let brackets := scanB rest none
    if 3 ≤ brackets.length then
      some { key := key
             summary := summaryOf rest
             assignee := assigneeOf (brackets.getD 0 [])
             issueType := (brackets.getD 1 []).asString
             priority := priorityOf (brackets.getD 2 []) }
    else if 2 ≤ brackets.length then
      some { key := key
             summary := summaryOf rest
             assignee := assigneeOf (brackets.getD 0 [])
             issueType := (brackets.getD 1 []).asString
             priority := "Medium" }
    else none

/-- The degraded fallback of `TicketCard`:
the split at plain colons, first chunk, trimmed: the text before the
first plain colon
(the whole string when there is none), trimmed. -/
def fallbackKey (s : String) : String :=
  (trimChars (s.data.takeWhile (· ≠ ':'))).asString

/-- The compact encoding `"K: S [A] [T] [P]"` that the parser decodes. -/
def encodeTicket (K S A T P : String) : String :=
  K ++ ": " ++ S ++ " [" ++ A ++ "] [" ++ T ++ "] [" ++ P ++ "]"

example : parseTicketInfo "PROJ-1: Fix login flow [Alice] [Bug] [High]" =
    some { key := "PROJ-1", summary := "Fix login flow", assignee := "Alice",
           issueType := "Bug", priority := "High" } := by decide

example : parseTicketInfo "T-1: a: b [Bob] [Bug] [High]" = none := by decide

example : parseTicketInfo "K-1: Do it [Unassigned] [Task]" =
    some { key := "K-1", summary := "Do it", assignee := "Non assigné",
           issueType := "Task", priority := "Medium" } := by decide

example : parseTicketInfo "nonsense" = none := by decide

example : fallbackKey "" = "" := by decide

example : fallbackKey "ABC-9 some junk" = "ABC-9 some junk" := by decide

/-! ### Transition workflow (TransitionModal / transitionTicket) -/

/-- Occurrence of `pat` as a contiguous subsequence, the model of
JS `String.prototype.includes`. -/
def containsSeq (pat : List Char) : List Char → Bool
  | [] => pat.isEmpty
  | c :: t => pat.isPrefixOf (c :: t) || containsSeq pat t

/-- Model of JS `toLowerCase` for the characters the transition names
use: ASCII letters plus the Latin-1 uppercase range (so `É` lowers
to `é`). -/
def charToLowerJS (c : Char) : Char :=
  if 'A' ≤ c ∧ c ≤ 'Z' then Char.ofNat (c.toNat + 32)
  else if 'À' ≤ c ∧ c ≤ 'Þ' ∧ c ≠ '×' then Char.ofNat (c.toNat + 32)
  else c

/-- JS `name.toLowerCase()` on the modelled character range. -/
def jsToLower (s : String) : String := (s.data.map charToLowerJS).asString

/-- JS `s.trim()`. -/
def strTrim (s : String) : String := (trimChars s.data).asString

/-- Embedding of `isTransitionToDone` from `TransitionModal`: the
lower-cased transition name contains one of the completion markers. -/
def isTransitionToDone (name : String) : Bool :=
  let n := (jsToLower name).data
  containsSeq "done".data n || containsSeq "terminé".data n ||
  containsSeq "termine".data n || containsSeq "close".data n ||
  containsSeq "resolve".data n

/-- The JSON body POSTed to `/tickets/{key}/transition`; `comment = none`
means the body carries no `comment` field at all. -/
structure TransitionPayload where
  transition_name : String
  comment : Option String
deriving DecidableEq

/-- Embedding of `apiService.transitionTicket`: the body always carries
`transition_name`; a `comment` field is added only when the argument is
a truthy string whose trim is non-empty, and then it is the trimmed
comment. -/
def transitionPayloadOf (transitionName : String) (comment : Option String) :
    TransitionPayload :=
  match comment with
  | none => { transition_name := transitionName, comment := none }
  | some c =>
    if c ≠ "" ∧ strTrim c ≠ "" then
      { transition_name := transitionName, comment := some (strTrim c) }
    else
      { transition_name := transitionName, comment := none }

/-- The `disabled` expression of the submit button in `TransitionModal`:
`loading || !selectedTransition || loadingTransitions ||
(isTransitionToDone(selectedTransition) && !comment.trim())`. -/
def submitDisabled (loading : Bool) (selectedTransition : String)
    (loadingTransitions : Bool) (comment : String) : Bool :=
  loading || selectedTransition == "" || loadingTransitions ||
    (isTransitionToDone selectedTransition && strTrim comment == "")

/-- One submission attempt of the transition form: the request reaches
the network only when the submit button is enabled and `handleSubmit`
finds a selected transition; the emitted body is built by
`transitionTicket`. -/
def modalSubmit (loading loadingTransitions : Bool)
    (selectedTransition comment : String) : Option TransitionPayload :=
  if submitDisabled loading selectedTransition loadingTransitions comment then
    none
  else if selectedTransition ≠ "" then
    some (transitionPayloadOf selectedTransition (some comment))
  else none

example : isTransitionToDone "Mark as Done" = true := by decide
example : isTransitionToDone "Reopen" = false := by decide
example : transitionPayloadOf "Done" (some "  ") =
    { transition_name := "Done", comment := none } := by decide

/-! ### Board state and loadTickets (project.jsx) -/

/-- The board: a mapping from status label to the encoded ticket strings
of that column, in object-key insertion order. -/
abbrev TicketBoard := List (String × List String)

/-- The slice of presentation state that `loadTickets` touches. -/
structure BoardState where
  tickets : TicketBoard
  error : String
  loading : Bool
deriving DecidableEq

/-- Outcome of the `getTickets` call awaited by `loadTickets`. -/
inductive FetchOutcome where
  | ok (data : TicketBoard)
  | err (message : String)

/-- Embedding of `loadTickets`: set loading and clear the error, then on
success replace the board with the response, on failure set the error
message (the thrown message, with a French default when empty) and reset
the board to the empty mapping; finally clear the loading flag. -/
def loadTickets (st : BoardState) (outcome : FetchOutcome) : BoardState :=
  let st1 : BoardState := { st with loading := true, error := "" }
  let st2 : BoardState :=
    match outcome with
    | .ok data => { st1 with tickets := data }
    | .err msg =>
      { st1 with
        error := if msg = "" then "Impossible de charger les tickets" else msg
        tickets := [] }
  { st2 with loading := false }

/-! ### Status ordering (getOrderedStatuses) -/

/-- The fixed rank table `statusOrder` of `getOrderedStatuses`. -/
def statusOrderTable : List (String × Nat) :=
  [("À faire", 1), ("A faire", 1), ("Todo", 1), ("TO DO", 1), ("Open", 1),
   ("En cours", 2), ("IN PROGRESS", 2), ("In Progress", 2), ("Progress", 2),
   ("Terminé", 3), ("Terminée", 3), ("Terminées", 3), ("Done", 3),
   ("DONE", 3), ("Closed", 3), ("Resolved", 3)]

/-- Rank lookup: the table value, or 999 for unrecognized labels. -/
def statusRank (s : String) : Nat :=
  (((statusOrderTable.find? (fun p => p.1 == s)).map (·.2)).getD 999)

/-- Lexicographic comparison of two lists of naturals. -/
def lexOrdNat : List Nat → List Nat → Ordering
  | [], [] => .eq
  | [], _ :: _ => .lt
  | _ :: _, [] => .gt
  | a :: as, b :: bs =>
    if a < b then .lt else if b < a then .gt else lexOrdNat as bs

/-- Primary collation key of the default-locale `localeCompare` model:
the case-folded code points. -/
def primaryKey (s : String) : List Nat :=
  s.data.map (fun c => (charToLowerJS c).toNat)

/-- Tertiary (case) collation key: in the default ICU locale a
lower-case letter sorts before its upper-case form. -/
def caseKey (s : String) : List Nat :=
  s.data.map (fun c => if charToLowerJS c = c then 0 else 1)

/-- Model of `String.prototype.localeCompare` under the default locale,
restricted to the Latin letters the status labels use: strings compare
first by their case-folded letters, and equal words compare lower-case
before upper-case.  `localeCompare` is a host-collation builtin; this
captures its documented default behaviour on this character range. -/
def localeOrd (a b : String) : Ordering :=
  match lexOrdNat (primaryKey a) (primaryKey b) with
  | .eq => lexOrdNat (caseKey a) (caseKey b)
  | o => o

/-- The integer sign `localeCompare` reports. -/
def localeCompare (a b : String) : Int :=
  match localeOrd a b with
  | .lt => -1
  | .eq => 0
  | .gt => 1

/-- The comparator passed to `statuses.sort`:
`orderA !== orderB ? orderA - orderB : a.localeCompare(b)`. -/
def statusCmp (a b : String) : Int :=
  if statusRank a = statusRank b then localeCompare a b
  else (statusRank a : Int) - (statusRank b : Int)

/-- Insertion into a list sorted by a boolean comparison. -/
def insertLe (le : String → String → Bool) (x : String) :
    List String → List String
  | [] => [x]
  | y :: t => if le x y then x :: y :: t else y :: insertLe le x t

/-- Insertion sort by a boolean comparison; with a consistent comparator
this produces the order `Array.prototype.sort` settles on. -/
def sortLe (le : String → String → Bool) : List String → List String
  | [] => []
  | x :: t => insertLe le x (sortLe le t)

/-- Embedding of `getOrderedStatuses`: sort the status labels by the
source comparator. -/
def getOrderedStatuses (statuses : List String) : List String :=
  sortLe (fun a b => statusCmp a b ≤ 0) statuses

/-- The ordering the spec describes: lower rank first, equal ranks tied
by the locale comparison. -/
def leSpec (a b : String) : Prop :=
  statusRank a < statusRank b ∨
    (statusRank a = statusRank b ∧ localeCompare a b ≤ 0)

example : getOrderedStatuses ["Done", "À faire", "En cours", "Mystery"] =
    ["À faire", "En cours", "Done", "Mystery"] := by decide

example : getOrderedStatuses ["a", "B"] = ["a", "B"] := by decide

/-! ### Filter facets (uniqueAssignees / uniquePriorities) -/

/-- Adding to a JS `Set` keeps the first insertion position and ignores
repeats. -/
def addUnique (l : List String) (x : String) : List String :=
  if x ∈ l then l else l ++ [x]

/-- All ticket strings of the board, across all status columns
(`Object.values(tickets).flat()`). -/
def allTickets (board : TicketBoard) : List String :=
  board.flatMap (·.2)

/-- The loop body of `uniqueAssignees`: add the assignee of a ticket
that parses, unless it is falsy or the sentinel. -/
def assigneeStep (acc : List String) (t : String) : List String :=
  match parseTicketInfo t with
  | some info =>
    if info.assignee ≠ "" ∧ info.assignee ≠ "Non assigné" then
      addUnique acc info.assignee
    else acc
  | none => acc

/-- Embedding of `uniqueAssignees`: the distinct assignees of tickets
that parse, excluding the falsy empty string and the sentinel
`"Non assigné"`. -/
def uniqueAssignees (board : TicketBoard) : List String :=
  (allTickets board).foldl assigneeStep []

/-- The fixed reference set of priorities. -/
def AVAILABLE_PRIORITIES : List String := ["Low", "Medium", "High", "Highest"]

/-- Code-unit comparison used by a default `Array.prototype.sort()`. -/
def codeUnitLe (a b : String) : Bool :=
  lexOrdNat (a.data.map Char.toNat) (b.data.map Char.toNat) ≠ .gt

/-- The loop body of `uniquePriorities` over the ticket strings. -/
def priorityStep (acc : List String) (t : String) : List String :=
  match parseTicketInfo t with
  | some info =>
    if info.priority ≠ "" then addUnique acc info.priority else acc
  | none => acc

/-- Embedding of `uniquePriorities`: distinct observed priorities,
unioned with `AVAILABLE_PRIORITIES`, sorted by the default string
sort. -/
def uniquePriorities (board : TicketBoard) : List String :=
  let observed := (allTickets board).foldl priorityStep []
  sortLe codeUnitLe (AVAILABLE_PRIORITIES.foldl addUnique observed)

example : uniquePriorities [] = ["High", "Highest", "Low", "Medium"] := by decide
example : uniqueAssignees [("Open", ["K-1: x [Unassigned] [Bug]"])] = [] := by
  decide

/-! ### Analytics (calculateMetrics in the dashboard) -/

/-- Embedding of the trend computation of `calculateMetrics`: last four
weekly counts, halves split at `floor(n/2)`, means compared when the
first mean is positive; the magnitude is reported as `Math.abs`.
JS numbers are modelled as exact rationals. -/
def calculateTrend (weeklyData : List ℚ) : String × ℚ :=
  let recentWeeks := weeklyData.drop (weeklyData.length - 4)
  let tp :=
    if 2 ≤ recentWeeks.length then
      let half := recentWeeks.length / 2
      let firstHalf := recentWeeks.take half
      let secondHalf := recentWeeks.drop half
      let firstAvg := firstHalf.sum / (max firstHalf.length 1 : ℚ)
      let secondAvg := secondHalf.sum / (max secondHalf.length 1 : ℚ)
      if 0 < firstAvg then
        let trendValue := (secondAvg - firstAvg) / firstAvg * 100
        ((if 10 < trendValue then "up"
          else if trendValue < -10 then "down" else "stable"), trendValue)
      else ("stable", 0)
    else ("stable", 0)
  (tp.1, |tp.2|)

/-- The trend classification as the spec words it: split the last four
buckets into halves, take the mean of each half (0 for an empty half), stay
`"stable"` at magnitude 0 when the first mean is 0, otherwise classify
the percentage change with thresholds at ±10. -/
def specTrend (weeks : List ℚ) : String × ℚ :=
  let recent := weeks.drop (weeks.length - 4)
  let fh := recent.take (recent.length / 2)
  let sh := recent.drop (recent.length / 2)
  let fm := if fh.length = 0 then 0 else fh.sum / (fh.length : ℚ)
  let sm := if sh.length = 0 then 0 else sh.sum / (sh.length : ℚ)
  if fm = 0 then ("stable", 0)
  else
    let tp := (sm - fm) / fm * 100
    ((if 10 < tp then "up" else if tp < -10 then "down" else "stable"), |tp|)

example : calculateTrend [5, 5, 12, 13] = ("up", 150) := by
  norm_num [calculateTrend]
example : calculateTrend [0, 0, 3, 4] = ("stable", 0) := by
  norm_num [calculateTrend]
example : calculateTrend [1, 2] = ("up", 100) := by
  norm_num [calculateTrend]

/-- A type distribution: JS object modelled as an association list in
key insertion order. -/
abbrev TypeDistribution := List (String × Nat)

/-- Count lookup: the mapped value of a key, or 0 when absent. -/
def cntOf (l : TypeDistribution) (k : String) : Nat :=
  (((l.find? (fun p => p.1 == k)).map (·.2)).getD 0)

/-- Embedding of the `mostCommonType` reduce of `calculateMetrics`:
a reduce over the keys that keeps the accumulator only when its count
is strictly greater, started from the first key (or "N/A" when the
distribution is empty or its first key is the falsy empty string). -/
def mostCommonType (l : TypeDistribution) : String :=
  let keys := l.map (·.1)
  let init := match keys with
    | [] => "N/A"
    | k :: _ => if k = "" then "N/A" else k
  keys.foldl (fun a b => if cntOf l a > cntOf l b then a else b) init

/-- The greatest count in the distribution. -/
def maxCnt (cnt : String → Nat) (keys : List String) : Nat :=
  (keys.map cnt).foldl max 0

/-- The key the (amended) spec designates: among the keys of maximal
count, the one appearing last in iteration order; `"N/A"` when the
distribution is empty. -/
def specMostCommonType (l : TypeDistribution) : String :=
  let keys := l.map (·.1)
  match keys with
  | [] => "N/A"
  | _ :: _ =>
    ((keys.reverse.find? (fun k => cntOf l k == maxCnt (cntOf l) keys)).getD
      "N/A")

example : mostCommonType [("Bug", 3), ("Task", 3)] = "Task" := by decide
example : mostCommonType [] = "N/A" := by decide
example : mostCommonType [("Bug", 5), ("Task", 3)] = "Bug" := by decide
example : specMostCommonType [("Bug", 3), ("Task", 3)] = "Task" := by decide

/-! ## Theorems -/

/-- C1 counterexample: on the valid encoding whose summary `"a: b"`
contains `": "`, the split cuts the remainder at the second
separator, no bracket group is found there, and parse returns null
instead of the record the claim predicts. -/
theorem parse_summary_colon_counterexample :
    parseTicketInfo "T-1: a: b [Bob] [Bug] [High]" ≠
      some { key := "T-1", summary := "a: b", assignee := "Bob",
             issueType := "Bug", priority := "High" } := by decide

/-- C2 counterexample: a failing refresh does not leave the board
unchanged; the previously loaded column is wiped. -/
theorem loadTickets_error_clears_board_counterexample :
    (loadTickets
        { tickets := [("Open", ["T-1: Fix it [Alice] [Bug]"])],
          error := "", loading := false }
        (.err "HTTP 500")).tickets ≠
      [("Open", ["T-1: Fix it [Alice] [Bug]"])] := by decide

/-- C2 amended: the error branch of `loadTickets` resets the board to
the empty mapping, surfaces the thrown message (or the French default
when it is empty) as the dismissible error, and clears the loading
flag. -/
theorem loadTickets_error_branch (st : BoardState) (msg : String) :
    (loadTickets st (.err msg)).tickets = [] ∧
    (loadTickets st (.err msg)).error =
      (if msg = "" then "Impossible de charger les tickets" else msg) ∧
    (loadTickets st (.err msg)).loading = false :=
  ⟨rfl, rfl, rfl⟩

/-- C3 counterexample: `"a"` and `"B"` both have rank 999, and code-unit
order would put `"B"` (0x42) before `"a"` (0x61); the source breaks the
tie with `localeCompare`, which orders `"a"` first. -/
theorem orderedStatuses_tiebreak_counterexample :
    getOrderedStatuses ["a", "B"] ≠ ["B", "a"] := by decide

/-- C5 counterexample: the empty string is a malformed input (it has no
`": "` separator and parse returns null), yet the degraded fallback of
`TicketCard` extracts an empty key from it. -/
theorem parse_malformed_empty_key_counterexample :
    parseTicketInfo "" = none ∧ fallbackKey "" = "" := by decide

/-- C8 counterexample: on `{Bug: 3, Task: 3}` the reduce with a strict
comparison keeps the accumulator only when it is strictly greater, so
the tie goes to the later key `"Task"`, not the first-encountered
`"Bug"`. -/
theorem mostCommonType_tie_counterexample :
    mostCommonType [("Bug", 3), ("Task", 3)] = "Task" ∧
      ("Task" : String) ≠ "Bug" := by decide

/-- C10: the transition body always carries the transition name; the
`comment` field is absent exactly when the comment argument is null,
empty or whitespace-only, and otherwise holds the trimmed comment. -/
theorem transitionTicket_comment_field (name : String)
    (comment : Option String) :
    transitionPayloadOf name comment =
      { transition_name := name
        comment :=
          match comment with
          | none => none
          | some c => if strTrim c = "" then none else some (strTrim c) } := by
  cases comment with
  | none => rfl
  | some c =>
    by_cases h : strTrim c = ""
    · have hfalse : ¬(c ≠ "" ∧ strTrim c ≠ "") := by
        intro hcontra
        exact hcontra.2 h
      simp [transitionPayloadOf, h, if_neg hfalse]
    · have hc : c ≠ "" := by
        intro he
        subst he
        exact h rfl
      simp [transitionPayloadOf, h, hc]

/-- C9: a transition request is only emitted with a non-empty selected
transition name; when that name denotes completion the emitted body
carries a non-empty comment; and a non-completion transition can be
submitted either without a comment or with one. -/
theorem transition_submit_gating :
    (∀ (loading loadingTransitions : Bool) (sel comment : String)
        (p : TransitionPayload),
        modalSubmit loading loadingTransitions sel comment = some p →
        sel ≠ "" ∧ p.transition_name = sel ∧
          (isTransitionToDone sel = true →
            ∃ c, p.comment = some c ∧ c ≠ "")) ∧
    (∀ sel : String, sel ≠ "" → isTransitionToDone sel = false →
        modalSubmit false false sel "" =
          some { transition_name := sel, comment := none } ∧
        modalSubmit false false sel "ok" =
          some { transition_name := sel, comment := some "ok" }) := by
  constructor
  · intro loading loadingTransitions sel comment p h
    by_cases hd :
        submitDisabled loading sel loadingTransitions comment = true
    · simp [modalSubmit, hd] at h
    · by_cases hsel : sel = ""
      · have : submitDisabled loading sel loadingTransitions comment = true := by
          simp [submitDisabled, hsel]
        exact absurd this hd
      · have hp : transitionPayloadOf sel (some comment) = p := by
          simpa [modalSubmit, hd, hsel] using h
        have hdis := hd
        simp only [submitDisabled, Bool.or_eq_true, not_or,
          Bool.not_eq_true, Bool.and_eq_true, beq_iff_eq] at hdis
        refine ⟨hsel, ?_, ?_⟩
        · rw [← hp]
          by_cases hc : comment ≠ "" ∧ strTrim comment ≠ "" <;>
            simp [transitionPayloadOf, hc]
        · intro hdone
          have htrim : ¬ strTrim comment = "" := by
            intro htr
            have : (isTransitionToDone sel &&
                (strTrim comment == "")) = true := by
              simp [hdone, htr]
            simp [submitDisabled, this] at hd
          have hcne : comment ≠ "" := by
            intro he
            subst he
            exact htrim rfl
          refine ⟨strTrim comment, ?_, htrim⟩
          rw [← hp]
          simp [transitionPayloadOf, hcne, htrim]
  · intro sel hsel hdone
    have hsel' : (sel == "") = false := by
      simp [hsel]
    constructor
    · have hd : submitDisabled false sel false "" = false := by
        simp [submitDisabled, hsel', hdone]
      simp [modalSubmit, hd, hsel, transitionPayloadOf]
    · have hd : submitDisabled false sel false "ok" = false := by
        simp [submitDisabled, hsel', hdone]
      have hok : strTrim "ok" = "ok" := rfl
      simp [modalSubmit, hd, hsel, transitionPayloadOf, hok]

/-- C9 witness: the gating theorem applied to a closure transition
submitted with a comment and to a non-closure transition submitted
without one. -/
theorem transition_submit_gating_witness :
    ("Close issue" : String) ≠ "" ∧
    (∃ c, (TransitionPayload.mk "Close issue" (some "all done")).comment =
        some c ∧ c ≠ "") ∧
    modalSubmit false false "Reopen" "" =
      some { transition_name := "Reopen", comment := none } :=
  ⟨(transition_submit_gating.1 false false "Close issue" "all done"
      ⟨"Close issue", some "all done"⟩ (by decide)).1,
   (transition_submit_gating.1 false false "Close issue" "all done"
      ⟨"Close issue", some "all done"⟩ (by decide)).2.2 (by decide),
   (transition_submit_gating.2 "Reopen" (by decide) (by decide)).1⟩

/-- C6: when the remainder after the first `": "` holds exactly two
bracketed groups, parse succeeds with the first group as assignee
(after the `"Unassigned"` mapping), the second as issue type, and the
default priority `"Medium"`. -/
theorem parse_two_bracket_groups (s : String) (p0 r b0 b1 : List Char)
    (hsplit : splitFirst s.data = some (p0, r))
    (hb : scanB (restPart r) none = [b0, b1]) :
    parseTicketInfo s =
      some { key := (trimChars p0).asString
             summary := summaryOf (restPart r)
             assignee := if b0.asString = "Unassigned" then "Non assigné"
               else b0.asString
             issueType := b1.asString
             priority := "Medium" } := by
  simp [parseTicketInfo, hsplit, hb, assigneeOf]

/-- C6 witness: the theorem applied to a two-bracket encoding with an
unassigned ticket. -/
theorem parse_two_bracket_groups_witness :
    splitFirst "K-1: Do it [Unassigned] [Task]".data =
      some ("K-1".data, "Do it [Unassigned] [Task]".data) ∧
    scanB (restPart "Do it [Unassigned] [Task]".data) none =
      ["Unassigned".data, "Task".data] ∧
    parseTicketInfo "K-1: Do it [Unassigned] [Task]" =
      some { key := "K-1", summary := "Do it", assignee := "Non assigné",
             issueType := "Task", priority := "Medium" } := by
  refine ⟨by decide, by decide, ?_⟩
  have h := parse_two_bracket_groups "K-1: Do it [Unassigned] [Task]"
    "K-1".data "Do it [Unassigned] [Task]".data "Unassigned".data "Task".data
    (by decide) (by decide)
  rw [h]
  decide

/-- If `": "` never occurs, the split finds nothing. -/
theorem splitFirst_eq_none {l : List Char} (h : hasColonSpace l = false) :
    splitFirst l = none := by
  induction l with
  | nil => rfl
  | cons c t ih =>
    simp only [hasColonSpace, Bool.or_eq_false_iff] at h
    simp [splitFirst, h.1, ih h.2]

/-- An element on which the predicate fails survives `dropWhile`. -/
theorem mem_dropWhile_of_mem {p : Char → Bool} {l : List Char} {c : Char}
    (hc : c ∈ l) (hpc : p c = false) : c ∈ l.dropWhile p := by
  induction l with
  | nil => cases hc
  | cons a t ih =>
    by_cases hpa : p a = true
    · rw [List.dropWhile_cons_of_pos hpa]
      rcases List.mem_cons.mp hc with rfl | hc2
      · rw [hpc] at hpa
        cases hpa
      · exact ih hc2
    · rw [List.dropWhile_cons_of_neg hpa]
      exact hc

/-- A list holding a non-whitespace character does not trim to
nothing. -/
theorem trimChars_ne_nil {l : List Char} {c : Char} (hc : c ∈ l)
    (hw : isWsJS c = false) : trimChars l ≠ [] := by
  unfold trimChars
  intro he
  have h1 : c ∈ l.dropWhile isWsJS := mem_dropWhile_of_mem hc hw
  have h2 : c ∈ (l.dropWhile isWsJS).reverse := List.mem_reverse.mpr h1
  have h3 : c ∈ (l.dropWhile isWsJS).reverse.dropWhile isWsJS :=
    mem_dropWhile_of_mem h2 hw
  rw [List.reverse_eq_nil_iff] at he
  rw [he] at h3
  cases h3

/-- C5 amended: parse is total and returns null on every input without
a `": "` separator, and on such inputs the degraded fallback key (text
before the first colon, trimmed) is non-empty whenever the input has a
non-whitespace character before its first colon. -/
theorem parse_malformed_fallback (s : String)
    (h : hasColonSpace s.data = false) :
    parseTicketInfo s = none ∧
    ((∃ c ∈ s.data.takeWhile (· ≠ ':'), isWsJS c = false) →
      fallbackKey s ≠ "") := by
  constructor
  · simp [parseTicketInfo, splitFirst_eq_none h]
  · rintro ⟨c, hc, hw⟩
    unfold fallbackKey
    intro he
    have hdata : trimChars (s.data.takeWhile (fun c => c ≠ ':')) = [] := by
      have := congrArg String.data he
      simpa [List.asString] using this
    exact trimChars_ne_nil hc hw hdata

/-- C5 witness: the theorem applied to a malformed input carrying a
visible key. -/
theorem parse_malformed_fallback_witness :
    hasColonSpace "hello world".data = false ∧
    parseTicketInfo "hello world" = none ∧
    fallbackKey "hello world" ≠ "" :=
  ⟨by decide,
   (parse_malformed_fallback "hello world" (by decide)).1,
   (parse_malformed_fallback "hello world" (by decide)).2
     ⟨'h', by decide, by decide⟩⟩

/-- Membership after a `Set`-style insertion. -/
theorem mem_addUnique {l : List String} {x y : String} :
    y ∈ addUnique l x ↔ y ∈ l ∨ y = x := by
  by_cases h : x ∈ l
  · simp only [addUnique, if_pos h]
    exact ⟨Or.inl, fun hy => hy.elim id (fun he => he ▸ h)⟩
  · simp [addUnique, if_neg h]

/-- The assignee loop never inserts the sentinel. -/
theorem foldl_assigneeStep_no_sentinel :
    ∀ (ts : List String) (acc : List String), "Non assigné" ∉ acc →
      "Non assigné" ∉ ts.foldl assigneeStep acc := by
  intro ts
  induction ts with
  | nil => exact fun acc h => h
  | cons t ts ih =>
    intro acc h
    apply ih
    cases hpt : parseTicketInfo t with
    | none => simpa [assigneeStep, hpt] using h
    | some info =>
      simp only [assigneeStep, hpt]
      by_cases hcond : info.assignee ≠ "" ∧ info.assignee ≠ "Non assigné"
      · rw [if_pos hcond]
        intro hmem
        rcases mem_addUnique.mp hmem with hacc | heq
        · exact h hacc
        · exact hcond.2 heq.symm
      · rw [if_neg hcond]
        exact h

/-- Everything already collected or later inserted is in the final
accumulator. -/
theorem mem_foldl_addUnique :
    ∀ (xs acc : List String) (y : String), y ∈ acc ∨ y ∈ xs →
      y ∈ xs.foldl addUnique acc := by
  intro xs
  induction xs with
  | nil =>
    intro acc y hy
    exact hy.elim id (fun hc => absurd hc (List.not_mem_nil y))
  | cons x xs ih =>
    intro acc y hy
    apply ih
    rcases hy with hacc | hx
    · exact Or.inl (mem_addUnique.mpr (Or.inl hacc))
    · rcases List.mem_cons.mp hx with rfl | hx2
      · exact Or.inl (mem_addUnique.mpr (Or.inr rfl))
      · exact Or.inr hx2

/-- Insertion produces a permutation of consing. -/
theorem perm_insertLe (le : String → String → Bool) (x : String) :
    ∀ l : List String, List.Perm (insertLe le x l) (x :: l) := by
  intro l
  induction l with
  | nil => exact List.Perm.refl _
  | cons y t ih =>
    by_cases h : le x y = true
    · rw [insertLe, if_pos h]
    · rw [insertLe, if_neg h]
      exact (ih.cons y).trans (List.Perm.swap x y t)

/-- The insertion sort permutes its input. -/
theorem perm_sortLe (le : String → String → Bool) :
    ∀ l : List String, List.Perm (sortLe le l) l := by
  intro l
  induction l with
  | nil => exact List.Perm.refl _
  | cons x t ih =>
    exact (perm_insertLe le x (sortLe le t)).trans (ih.cons x)

/-- C7: the derived priorities facet always offers the four canonical
priorities, and the assignees facet never lists the unassigned
sentinel. -/
theorem facets_priorities_and_assignees (board : TicketBoard) :
    (∀ p ∈ AVAILABLE_PRIORITIES, p ∈ uniquePriorities board) ∧
    "Non assigné" ∉ uniqueAssignees board := by
  constructor
  · intro p hp
    exact (perm_sortLe codeUnitLe
        (AVAILABLE_PRIORITIES.foldl addUnique
          ((allTickets board).foldl priorityStep []))).mem_iff.mpr
      (mem_foldl_addUnique _ _ _ (Or.inr hp))
  · exact foldl_assigneeStep_no_sentinel _ [] (List.not_mem_nil _)

/-- C4: on non-negative weekly counts the source trend computation
matches the spec description (halves of the last four buckets, means,
a zero first-half mean giving a stable trend of magnitude 0, thresholds
at ±10, absolute magnitude); in particular `[5,5,12,13]` classifies
`"up"` at 150 and `[0,0,3,4]` stays `"stable"` at 0. -/
theorem calculateTrend_matches_spec :
    (∀ weeks : List ℚ, (∀ c ∈ weeks, 0 ≤ c) →
      calculateTrend weeks = specTrend weeks) ∧
    calculateTrend [5, 5, 12, 13] = ("up", 150) ∧
    calculateTrend [0, 0, 3, 4] = ("stable", 0) := by
  refine ⟨?_, by norm_num [calculateTrend], by norm_num [calculateTrend]⟩
  intro weeks hpos
  simp only [calculateTrend, specTrend]
  set r := weeks.drop (weeks.length - 4) with hr
  have hmemr : ∀ c ∈ r, 0 ≤ c := fun c hc =>
    hpos c (List.mem_of_mem_drop hc)
  by_cases h2 : 2 ≤ r.length
  · rw [if_pos h2]
    set fh := r.take (r.length / 2) with hfh
    set sh := r.drop (r.length / 2) with hsh
    have hh1 : 1 ≤ r.length / 2 :=
      (Nat.one_le_div_iff (by norm_num)).mpr h2
    have hfl : fh.length = r.length / 2 := by
      rw [hfh, List.length_take]
      exact Nat.min_eq_left (Nat.div_le_self _ _)
    have hsl : sh.length = r.length - r.length / 2 := by
      rw [hsh, List.length_drop]
    have hf1 : 1 ≤ fh.length := by omega
    have hs1 : 1 ≤ sh.length := by
      rw [hsl]
      omega
    have hmaxf : max (fh.length : ℚ) 1 = (fh.length : ℚ) :=
      max_eq_left (by exact_mod_cast hf1)
    have hmaxs : max (sh.length : ℚ) 1 = (sh.length : ℚ) :=
      max_eq_left (by exact_mod_cast hs1)
    rw [hmaxf, hmaxs]
    have hfne : ¬ fh.length = 0 := by omega
    have hsne : ¬ sh.length = 0 := by omega
    rw [if_neg hfne, if_neg hsne]
    by_cases hfm : fh.sum / (fh.length : ℚ) = 0
    · rw [if_pos hfm, if_neg (by rw [hfm]; exact lt_irrefl 0)]
      simp
    · have hnn : 0 ≤ fh.sum / (fh.length : ℚ) :=
        div_nonneg
          (List.sum_nonneg fun c hc => hmemr c (List.mem_of_mem_take hc))
          (Nat.cast_nonneg _)
      rw [if_pos (lt_of_le_of_ne hnn (Ne.symm hfm)), if_neg hfm]
  · rw [if_neg h2]
    have h0 : r.length / 2 = 0 := by omega
    have hf0 : (r.take (r.length / 2)).length = 0 := by
      rw [List.length_take]
      omega
    rw [if_pos hf0, if_pos rfl]
    simp

/-- C4 witness: the equivalence applied to the concrete rising series. -/
theorem calculateTrend_matches_spec_witness :
    (∀ c ∈ ([5, 5, 12, 13] : List ℚ), 0 ≤ c) ∧
    calculateTrend [5, 5, 12, 13] = specTrend [5, 5, 12, 13] :=
  ⟨by norm_num,
   calculateTrend_matches_spec.1 [5, 5, 12, 13] (by norm_num)⟩

/-- Folding `max` from any start. -/
theorem foldl_max_init (l : List Nat) :
    ∀ i : Nat, l.foldl max i = max i (l.foldl max 0) := by
  induction l with
  | nil => intro i; simp
  | cons a t ih =>
    intro i
    simp only [List.foldl_cons]
    rw [ih (max i a), ih (max 0 a), Nat.zero_max, Nat.max_assoc]

/-- Peeling one key off the running maximum. -/
theorem maxCnt_cons (cnt : String → Nat) (x : String) (l : List String) :
    maxCnt cnt (x :: l) = max (cnt x) (maxCnt cnt l) := by
  simp only [maxCnt, List.map_cons, List.foldl_cons]
  rw [foldl_max_init, Nat.zero_max]

/-- A non-empty key list attains its maximal count. -/
theorem maxCnt_attained (cnt : String → Nat) :
    ∀ l : List String, l ≠ [] → ∃ x ∈ l, cnt x = maxCnt cnt l := by
  intro l
  induction l with
  | nil => exact fun h => absurd rfl h
  | cons x t ih =>
    intro _
    rw [maxCnt_cons]
    by_cases ht : t = []
    · subst ht
      refine ⟨x, List.mem_cons_self _ _, ?_⟩
      simp [maxCnt]
    · obtain ⟨y, hy, hcy⟩ := ih ht
      by_cases hcase : maxCnt cnt t ≤ cnt x
      · exact ⟨x, List.mem_cons_self _ _, (Nat.max_eq_left hcase).symm⟩
      · refine ⟨y, List.mem_cons_of_mem _ hy, ?_⟩
        rw [Nat.max_eq_right (Nat.le_of_not_le hcase), hcy]

/-- Searching an append looks left first. -/
theorem find?_append_my (p : String → Bool) :
    ∀ l1 l2 : List String, (l1 ++ l2).find? p =
      match l1.find? p with
      | some x => some x
      | none => l2.find? p := by
  intro l1 l2
  induction l1 with
  | nil => rfl
  | cons x t ih =>
    by_cases hp : p x = true
    · simp [List.find?_cons_of_pos, hp]
    · have hp2 : p x = false := by
        simpa using hp
      simp [List.find?_cons_of_neg, hp2, ih]

/-- The reduce of `mostCommonType` lands on the key of maximal count
that sits last among the maximal keys, located by searching the
reversed key list. -/
theorem foldl_pickMax_eq (cnt : String → Nat) :
    ∀ (bs : List String) (a : String),
      some (bs.foldl (fun x y => if cnt x > cnt y then x else y) a) =
        (a :: bs).reverse.find?
          (fun k => cnt k == maxCnt cnt (a :: bs)) := by
  intro bs
  induction bs with
  | nil =>
    intro a
    have hm : maxCnt cnt [a] = cnt a := by
      simp [maxCnt]
    simp [hm]
  | cons b t ih =>
    intro a
    simp only [List.foldl_cons]
    rw [ih (if cnt a > cnt b then a else b)]
    have hstep : cnt (if cnt a > cnt b then a else b) =
        max (cnt a) (cnt b) := by
      by_cases h : cnt a > cnt b
      · rw [if_pos h, Nat.max_eq_left (Nat.le_of_lt h)]
      · rw [if_neg h, Nat.max_eq_right (Nat.le_of_not_lt h)]
    have hM : maxCnt cnt ((if cnt a > cnt b then a else b) :: t) =
        maxCnt cnt (a :: b :: t) := by
      rw [maxCnt_cons, maxCnt_cons, maxCnt_cons, hstep, Nat.max_assoc]
    rw [hM]
    set M := maxCnt cnt (a :: b :: t) with hMdef
    set q := fun k => cnt k == M with hq
    have hrev1 : ((if cnt a > cnt b then a else b) :: t).reverse =
        t.reverse ++ [if cnt a > cnt b then a else b] := by
      rw [List.reverse_cons]
    have hrev2 : (a :: b :: t).reverse = t.reverse ++ [b] ++ [a] := by
      rw [List.reverse_cons, List.reverse_cons]
    rw [hrev1, hrev2, find?_append_my, find?_append_my, find?_append_my]
    cases hfind : t.reverse.find? q with
    | some x => rfl
    | none =>
      simp only []
      have hnone : ∀ x ∈ t, q x = false := by
        intro x hx
        have := List.find?_eq_none.mp hfind x (List.mem_reverse.mpr hx)
        simpa using this
      have hMab : M = max (cnt a) (cnt b) := by
        by_cases hle : maxCnt cnt t ≤ max (cnt a) (cnt b)
        · rw [hMdef, maxCnt_cons, maxCnt_cons, ← Nat.max_assoc]
          exact Nat.max_eq_left hle
        · exfalso
          have htne : t ≠ [] := by
            intro he
            rw [he] at hle
            exact hle (by simp [maxCnt])
          obtain ⟨y, hy, hcy⟩ := maxCnt_attained cnt t htne
          have hyM : cnt y = M := by
            rw [hcy, hMdef, maxCnt_cons, maxCnt_cons, ← Nat.max_assoc,
              Nat.max_eq_right (Nat.le_of_not_le hle)]
          have := hnone y hy
          rw [hq] at this
          simp [hyM] at this
      by_cases hab : cnt a > cnt b
      · have hMa : M = cnt a := by
          rw [hMab, Nat.max_eq_left (Nat.le_of_lt hab)]
        have hqb : q b = false := by
          rw [hq]
          simp only [beq_eq_false_iff_ne, ne_eq]
          omega
        have hqa : q a = true := by
          rw [hq]
          simp [hMa]
        have hqstep : q (if cnt a > cnt b then a else b) = true := by
          rw [if_pos hab]
          exact hqa
        simp [List.find?, hqb, hqa, hqstep, if_pos hab]
      · have hMb : M = cnt b := by
          rw [hMab, Nat.max_eq_right (Nat.le_of_not_lt hab)]
        have hqb : q b = true := by
          rw [hq]
          simp [hMb]
        have hqstep : q (if cnt a > cnt b then a else b) = true := by
          rw [if_neg hab]
          exact hqb
        simp [List.find?, hqb, hqstep, if_neg hab]

/-- C8 amended: `mostCommonType` returns the key of maximal count,
with ties broken in favour of the key that appears last in the
iteration order of the mapping, and `"N/A"` on the empty distribution
(assuming no empty-string key, which would trip the falsy init). -/
theorem mostCommonType_last_max (l : TypeDistribution)
    (hne : "" ∉ l.map (·.1)) :
    mostCommonType l = specMostCommonType l := by
  cases hl : l.map (·.1) with
  | nil =>
    have hl0 : l = [] := List.map_eq_nil_iff.mp hl
    subst hl0
    rfl
  | cons k0 kt =>
    have hk0 : k0 ≠ "" := by
      rw [hl] at hne
      intro he
      exact hne (he ▸ List.mem_cons_self _ _)
    unfold mostCommonType specMostCommonType
    rw [hl]
    simp only [if_neg hk0, List.foldl_cons, ite_self]
    have h := foldl_pickMax_eq (cntOf l) kt k0
    rw [← h]
    rfl

/-- C8 witness: the amended theorem at a distribution with a tie. -/
theorem mostCommonType_last_max_witness :
    ("" ∉ ([("Bug", 3), ("Task", 3)] : TypeDistribution).map (·.1)) ∧
    mostCommonType [("Bug", 3), ("Task", 3)] =
      specMostCommonType [("Bug", 3), ("Task", 3)] :=
  ⟨by decide, mostCommonType_last_max [("Bug", 3), ("Task", 3)] (by decide)⟩

/-- Strict lexicographic comparisons chain. -/
theorem lexOrdNat_lt_trans :
    ∀ a b c : List Nat, lexOrdNat a b = .lt → lexOrdNat b c = .lt →
      lexOrdNat a c = .lt := by
  intro a
  induction a with
  | nil =>
    intro b c h1 h2
    cases b with
    | nil => exact absurd h1 (by simp [lexOrdNat])
    | cons y bs =>
      cases c with
      | nil => exact absurd h2 (by simp [lexOrdNat])
      | cons z cs => simp [lexOrdNat]
  | cons x as ih =>
    intro b c h1 h2
    cases b with
    | nil => exact absurd h1 (by simp [lexOrdNat])
    | cons y bs =>
      cases c with
      | nil => exact absurd h2 (by simp [lexOrdNat])
      | cons z cs =>
        simp only [lexOrdNat] at h1 h2 ⊢
        by_cases hxy : x < y
        · by_cases hyz : y < z
          · rw [if_pos (by omega : x < z)]
          · by_cases hzy : z < y
            · rw [if_neg hyz, if_pos hzy] at h2
              exact absurd h2 (by decide)
            · rw [if_pos (by omega : x < z)]
        · by_cases hyx : y < x
          · rw [if_neg hxy, if_pos hyx] at h1
            exact absurd h1 (by decide)
          · rw [if_neg hxy, if_neg hyx] at h1
            by_cases hyz : y < z
            · rw [if_pos (by omega : x < z)]
            · by_cases hzy : z < y
              · rw [if_neg hyz, if_pos hzy] at h2
                exact absurd h2 (by decide)
              · rw [if_neg hyz, if_neg hzy] at h2
                rw [if_neg (by omega : ¬ x < z),
                  if_neg (by omega : ¬ z < x)]
                exact ih bs cs h1 h2

/-- The lexicographic comparison reports `eq` only on equal lists. -/
theorem lexOrdNat_eq_iff :
    ∀ a b : List Nat, lexOrdNat a b = .eq ↔ a = b := by
  intro a
  induction a with
  | nil =>
    intro b
    cases b <;> simp [lexOrdNat]
  | cons x as ih =>
    intro b
    cases b with
    | nil => simp [lexOrdNat]
    | cons y bs =>
      simp only [lexOrdNat, List.cons.injEq]
      by_cases hxy : x < y
      · rw [if_pos hxy]
        constructor
        · intro hc
          exact absurd hc (by decide)
        · rintro ⟨h, _⟩
          omega
      · by_cases hyx : y < x
        · rw [if_neg hxy, if_pos hyx]
          constructor
          · intro hc
            exact absurd hc (by decide)
          · rintro ⟨h, _⟩
            omega
        · rw [if_neg hxy, if_neg hyx, ih bs]
          constructor
          · intro h
            exact ⟨by omega, h⟩
          · rintro ⟨_, h⟩
            exact h

/-- Swapping the arguments swaps the verdict. -/
theorem lexOrdNat_swap :
    ∀ a b : List Nat, lexOrdNat b a = (lexOrdNat a b).swap := by
  intro a
  induction a with
  | nil =>
    intro b
    cases b <;> simp [lexOrdNat, Ordering.swap]
  | cons x as ih =>
    intro b
    cases b with
    | nil => simp [lexOrdNat, Ordering.swap]
    | cons y bs =>
      simp only [lexOrdNat]
      rcases Nat.lt_trichotomy x y with h | h | h
      · have h2 : ¬ y < x := by omega
        simp [h, h2, Ordering.swap]
      · subst h
        have h2 : ¬ x < x := Nat.lt_irrefl x
        simp only [h2, if_false]
        exact ih bs
      · have h2 : ¬ x < y := by omega
        simp [h, h2, Ordering.swap]

/-- Weak lexicographic comparisons chain. -/
theorem lexOrdNat_le_trans (a b c : List Nat) (h1 : lexOrdNat a b ≠ .gt)
    (h2 : lexOrdNat b c ≠ .gt) : lexOrdNat a c ≠ .gt := by
  cases hab : lexOrdNat a b with
  | gt => exact absurd hab h1
  | lt =>
    cases hbc : lexOrdNat b c with
    | gt => exact absurd hbc h2
    | lt =>
      rw [lexOrdNat_lt_trans a b c hab hbc]
      decide
    | eq =>
      rw [← (lexOrdNat_eq_iff b c).mp hbc, hab]
      decide
  | eq =>
    rw [(lexOrdNat_eq_iff a b).mp hab]
    exact h2

/-- The locale comparison swaps with its arguments. -/
theorem localeOrd_swap (a b : String) :
    localeOrd b a = (localeOrd a b).swap := by
  unfold localeOrd
  rw [lexOrdNat_swap (primaryKey a) (primaryKey b),
    lexOrdNat_swap (caseKey a) (caseKey b)]
  cases lexOrdNat (primaryKey a) (primaryKey b) <;>
    cases lexOrdNat (caseKey a) (caseKey b) <;> rfl

/-- One side of every locale comparison is non-greater. -/
theorem localeOrd_total (a b : String) :
    localeOrd a b ≠ .gt ∨ localeOrd b a ≠ .gt := by
  cases h : localeOrd a b with
  | lt =>
    left
    simp [h]
  | eq =>
    left
    simp [h]
  | gt =>
    right
    rw [localeOrd_swap a b, h]
    decide

/-- The weak locale comparison chains. -/
theorem localeOrd_le_trans (a b c : String) (h1 : localeOrd a b ≠ .gt)
    (h2 : localeOrd b c ≠ .gt) : localeOrd a c ≠ .gt := by
  unfold localeOrd at h1 h2 ⊢
  cases hab : lexOrdNat (primaryKey a) (primaryKey b) with
  | gt =>
    rw [hab] at h1
    exact absurd rfl h1
  | lt =>
    cases hbc : lexOrdNat (primaryKey b) (primaryKey c) with
    | gt =>
      rw [hbc] at h2
      exact absurd rfl h2
    | lt =>
      rw [lexOrdNat_lt_trans _ _ _ hab hbc]
      exact fun hc => Ordering.noConfusion hc
    | eq =>
      rw [← (lexOrdNat_eq_iff _ _).mp hbc, hab]
      exact fun hc => Ordering.noConfusion hc
  | eq =>
    rw [hab] at h1
    rw [(lexOrdNat_eq_iff _ _).mp hab]
    cases hbc : lexOrdNat (primaryKey b) (primaryKey c) with
    | gt =>
      rw [hbc] at h2
      exact absurd rfl h2
    | lt =>
      exact fun hc => Ordering.noConfusion hc
    | eq =>
      rw [hbc] at h2
      exact lexOrdNat_le_trans _ _ _ h1 h2

/-- The reported sign is non-positive exactly when the locale verdict
is non-greater. -/
theorem localeCompare_nonpos_iff (a b : String) :
    localeCompare a b ≤ 0 ↔ localeOrd a b ≠ .gt := by
  unfold localeCompare
  cases h : localeOrd a b <;> simp

/-- Unfolding the source comparator into the rank-then-locale
description. -/
theorem statusCmp_le_char (a b : String) :
    statusCmp a b ≤ 0 ↔
      (statusRank a < statusRank b ∨
        (statusRank a = statusRank b ∧ localeOrd a b ≠ .gt)) := by
  unfold statusCmp
  by_cases h : statusRank a = statusRank b
  · rw [if_pos h, localeCompare_nonpos_iff]
    constructor
    · intro hle
      exact Or.inr ⟨h, hle⟩
    · rintro (hlt | ⟨_, hle⟩)
      · omega
      · exact hle
  · rw [if_neg h]
    constructor
    · intro hle
      left
      omega
    · rintro (hlt | ⟨heq, _⟩)
      · omega
      · exact absurd heq h

/-- The spec ordering coincides with a non-positive comparator. -/
theorem leSpec_iff (a b : String) : leSpec a b ↔ statusCmp a b ≤ 0 := by
  unfold leSpec
  rw [statusCmp_le_char, localeCompare_nonpos_iff]

/-- The comparator is total. -/
theorem statusCmp_le_total (a b : String) :
    statusCmp a b ≤ 0 ∨ statusCmp b a ≤ 0 := by
  unfold statusCmp
  by_cases h : statusRank a = statusRank b
  · rw [if_pos h, if_pos h.symm, localeCompare_nonpos_iff,
      localeCompare_nonpos_iff]
    exact localeOrd_total a b
  · rw [if_neg h, if_neg (Ne.symm h)]
    omega

/-- The comparator chains. -/
theorem statusCmp_le_trans (a b c : String) (h1 : statusCmp a b ≤ 0)
    (h2 : statusCmp b c ≤ 0) : statusCmp a c ≤ 0 := by
  rw [statusCmp_le_char] at h1 h2 ⊢
  rcases h1 with h1 | ⟨h1e, h1o⟩
  · rcases h2 with h2 | ⟨h2e, _⟩
    · left
      omega
    · left
      omega
  · rcases h2 with h2 | ⟨h2e, h2o⟩
    · left
      omega
    · exact Or.inr ⟨by omega, localeOrd_le_trans a b c h1o h2o⟩

/-- Inserting into a sorted list keeps it sorted, for any total and
transitive boolean comparison. -/
theorem pairwise_insertLe (le : String → String → Bool)
    (htot : ∀ a b, le a b = true ∨ le b a = true)
    (htrans : ∀ a b c, le a b = true → le b c = true → le a c = true)
    (x : String) :
    ∀ l : List String, l.Pairwise (fun a b => le a b = true) →
      (insertLe le x l).Pairwise (fun a b => le a b = true) := by
  intro l
  induction l with
  | nil =>
    intro _
    simp [insertLe]
  | cons y t ih =>
    intro hl
    rcases List.pairwise_cons.mp hl with ⟨hyt, hts⟩
    by_cases h : le x y = true
    · rw [insertLe, if_pos h]
      refine List.Pairwise.cons ?_ hl
      intro z hz
      rcases List.mem_cons.mp hz with rfl | hz2
      · exact h
      · exact htrans x y z h (hyt z hz2)
    · rw [insertLe, if_neg h]
      refine List.Pairwise.cons ?_ (ih hts)
      intro z hz
      have hz3 : z = x ∨ z ∈ t := by
        have := (perm_insertLe le x t).mem_iff.mp hz
        exact List.mem_cons.mp this
      rcases hz3 with heq | hz4
      · rw [heq]
        rcases htot x y with hxy | hyx
        · exact absurd hxy h
        · exact hyx
      · exact hyt z hz4

/-- The insertion sort orders any list, for any total and transitive
boolean comparison. -/
theorem pairwise_sortLe (le : String → String → Bool)
    (htot : ∀ a b, le a b = true ∨ le b a = true)
    (htrans : ∀ a b c, le a b = true → le b c = true → le a c = true) :
    ∀ l : List String,
      (sortLe le l).Pairwise (fun a b => le a b = true) := by
  intro l
  induction l with
  | nil => simp [sortLe]
  | cons x t ih => exact pairwise_insertLe le htot htrans x _ ih

/-- C3 amended: `getOrderedStatuses` permutes its input into an order
that is pairwise non-decreasing for the rank table, with equal-rank
ties ordered by the locale-aware `localeCompare` (not by code units);
the four-status example orders as the spec shows. -/
theorem orderedStatuses_rank_sorted :
    (∀ l : List String,
      List.Perm (getOrderedStatuses l) l ∧
      (getOrderedStatuses l).Pairwise leSpec) ∧
    getOrderedStatuses ["Done", "À faire", "En cours", "Mystery"] =
      ["À faire", "En cours", "Done", "Mystery"] := by
  constructor
  · intro l
    constructor
    · exact perm_sortLe _ l
    · have htot : ∀ a b : String,
          (fun a b => decide (statusCmp a b ≤ 0)) a b = true ∨
          (fun a b => decide (statusCmp a b ≤ 0)) b a = true := by
        intro a b
        rcases statusCmp_le_total a b with h | h
        · exact Or.inl (decide_eq_true h)
        · exact Or.inr (decide_eq_true h)
      have htrans : ∀ a b c : String,
          (fun a b => decide (statusCmp a b ≤ 0)) a b = true →
          (fun a b => decide (statusCmp a b ≤ 0)) b c = true →
          (fun a b => decide (statusCmp a b ≤ 0)) a c = true := by
        intro a b c h1 h2
        exact decide_eq_true
          (statusCmp_le_trans a b c (of_decide_eq_true h1)
            (of_decide_eq_true h2))
      have hp := pairwise_sortLe _ htot htrans l
      exact hp.imp fun h => (leSpec_iff _ _).mpr (of_decide_eq_true h)
  · decide

/-- A string is its character list re-packed. -/
theorem asString_data (s : String) : s.data.asString = s := rfl

/-- Dropping a prefix never lengthens a list. -/
theorem length_dropWhile_le_my (p : Char → Bool) :
    ∀ l : List Char, (l.dropWhile p).length ≤ l.length := by
  intro l
  induction l with
  | nil => simp
  | cons c t ih =>
    by_cases hp : p c = true
    · rw [List.dropWhile_cons_of_pos hp]
      simp only [List.length_cons]
      omega
    · rw [List.dropWhile_cons_of_neg hp]

/-- A `dropWhile` preserving the length dropped nothing. -/
theorem dropWhile_eq_self_of_length {p : Char → Bool} :
    ∀ l : List Char, (l.dropWhile p).length = l.length →
      l.dropWhile p = l := by
  intro l
  induction l with
  | nil => intro _; rfl
  | cons c t ih =>
    intro h
    by_cases hp : p c = true
    · rw [List.dropWhile_cons_of_pos hp] at h
      exfalso
      have := length_dropWhile_le_my p t
      simp only [List.length_cons] at h
      omega
    · rw [List.dropWhile_cons_of_neg hp]

/-- A list equal to its own trim does not end in whitespace. -/
theorem trimChars_getLast (l : List Char) (h : trimChars l = l) :
    ∀ c, l.getLast? = some c → isWsJS c = false := by
  have hlen : (l.dropWhile isWsJS).length = l.length := by
    have e1 : (trimChars l).length ≤ (l.dropWhile isWsJS).length := by
      unfold trimChars
      rw [List.length_reverse]
      calc ((l.dropWhile isWsJS).reverse.dropWhile isWsJS).length
          ≤ ((l.dropWhile isWsJS).reverse).length :=
            length_dropWhile_le_my _ _
        _ = (l.dropWhile isWsJS).length := List.length_reverse _
    have e2 := length_dropWhile_le_my isWsJS l
    have e3 : (trimChars l).length = l.length := by rw [h]
    omega
  have hdw : l.dropWhile isWsJS = l :=
    dropWhile_eq_self_of_length l hlen
  have h2 : (l.reverse.dropWhile isWsJS).reverse = l := by
    calc (l.reverse.dropWhile isWsJS).reverse
        = trimChars l := by unfold trimChars; rw [hdw]
      _ = l := h
  have h3 : l.reverse.dropWhile isWsJS = l.reverse := by
    have := congrArg List.reverse h2
    rwa [List.reverse_reverse] at this
  intro c hc
  have hrev : l.reverse.head? = some c := by
    rw [List.head?_reverse]
    exact hc
  cases hr : l.reverse with
  | nil =>
    rw [hr] at hrev
    cases hrev
  | cons x t =>
    rw [hr] at hrev h3
    have hxc : x = c := by
      simpa using hrev
    by_contra hwc
    have hwx : isWsJS x = true := by
      rw [hxc]
      simpa using hwc
    rw [List.dropWhile_cons_of_pos hwx] at h3
    have := length_dropWhile_le_my isWsJS t
    have hlen2 := congrArg List.length h3
    simp only [List.length_cons] at hlen2
    omega

/-- Splitting a text that opens with a separator-free prefix cuts
exactly after that prefix. -/
theorem splitFirst_append (K R : List Char)
    (hK : hasColonSpace K = false) :
    splitFirst (K ++ ':' :: ' ' :: R) = some (K, R) := by
  induction K with
  | nil => rfl
  | cons k K2 ih =>
    simp only [hasColonSpace, Bool.or_eq_false_iff] at hK
    have hcond : (k == ':' &&
        ((K2 ++ ':' :: ' ' :: R).head? == some ' ')) = false := by
      cases K2 with
      | nil => simp
      | cons x xs => simpa using hK.1
    have hunfold : splitFirst ((k :: K2) ++ ':' :: ' ' :: R) =
        if (k == ':' && ((K2 ++ ':' :: ' ' :: R).head? == some ' ')) = true
        then some ([], (K2 ++ ':' :: ' ' :: R).tail)
        else (splitFirst (K2 ++ ':' :: ' ' :: R)).map
          (fun p => (k :: p.1, p.2)) := rfl
    rw [hunfold, if_neg (by rw [hcond]; exact Bool.false_ne_true),
      ih hK.2]
    rfl

/-- The bracket scanner skips bracket-free text. -/
theorem scanB_skip (X l : List Char) (hX : ∀ c ∈ X, c ≠ '[') :
    scanB (X ++ l) none = scanB l none := by
  induction X with
  | nil => rfl
  | cons x t ih =>
    have hx : x ≠ '[' := hX x (List.mem_cons_self _ _)
    simp only [List.cons_append, scanB]
    rw [if_neg (by simp [hx])]
    exact ih fun c hc => hX c (List.mem_cons_of_mem _ hc)

/-- Inside a group, the scanner collects to the closing bracket. -/
theorem scanB_inner (A : List Char) :
    ∀ (acc l : List Char), (∀ c ∈ A, c ≠ ']') →
      acc.reverse ++ A ≠ [] →
      scanB (A ++ ']' :: l) (some acc) =
        (acc.reverse ++ A) :: scanB l none := by
  induction A with
  | nil =>
    intro acc l _ hne
    have hacc : acc ≠ [] := by
      intro he
      rw [he] at hne
      exact hne rfl
    have hie : acc.isEmpty = false := by
      cases acc with
      | nil => exact absurd rfl hacc
      | cons _ _ => rfl
    simp only [List.nil_append, scanB, hie]
    simp
  | cons a A2 ih =>
    intro acc l hA hne
    have ha : a ≠ ']' := hA a (List.mem_cons_self _ _)
    have hunfold : scanB ((a :: A2) ++ ']' :: l) (some acc) =
        if (a == ']') = true then
          (if acc.isEmpty = true then scanB (A2 ++ ']' :: l) none
           else acc.reverse :: scanB (A2 ++ ']' :: l) none)
        else scanB (A2 ++ ']' :: l) (some (a :: acc)) := rfl
    rw [hunfold, if_neg (by simp [ha]),
      ih (a :: acc) l (fun c hc => hA c (List.mem_cons_of_mem _ hc))
        (by simp)]
    simp

/-- A complete non-empty group is extracted and scanning resumes
after it. -/
theorem scanB_bracket (A l : List Char) (hA1 : A ≠ [])
    (hA2 : ∀ c ∈ A, c ≠ ']') :
    scanB ('[' :: (A ++ ']' :: l)) none = A :: scanB l none := by
  have h := scanB_inner A [] l hA2 (by simpa using hA1)
  simp only [List.reverse_nil, List.nil_append] at h
  exact h

/-- Text holding a non-whitespace, non-bracket character blocks the
whitespace-then-bracket test. -/
theorem fnwb_append_false (X l : List Char)
    (hnw : ∃ c ∈ X, isWsJS c = false) (hnb : ∀ c ∈ X, c ≠ '[') :
    firstNonWsBracket (X ++ l) = false := by
  induction X with
  | nil =>
    rcases hnw with ⟨c, hc, _⟩
    cases hc
  | cons x t ih =>
    unfold firstNonWsBracket
    simp only [List.cons_append]
    by_cases hwx : isWsJS x = true
    · rw [List.dropWhile_cons_of_pos hwx]
      have hnw2 : ∃ c ∈ t, isWsJS c = false := by
        rcases hnw with ⟨c, hc, hw⟩
        rcases List.mem_cons.mp hc with rfl | hc2
        · rw [hwx] at hw
          cases hw
        · exact ⟨c, hc2, hw⟩
      exact ih hnw2 fun c hc => hnb c (List.mem_cons_of_mem _ hc)
    · rw [List.dropWhile_cons_of_neg hwx]
      have hx : x ≠ '[' := hnb x (List.mem_cons_self _ _)
      simp [hx]

/-- The lazy summary search stops exactly at the opening bracket that
follows the trimmed summary text. -/
theorem findK_spec (S2 : List Char) :
    ∀ l : List Char, (∀ c ∈ S2, c ≠ '[') →
      (∀ c, S2.getLast? = some c → isWsJS c = false) →
      findK (S2 ++ ' ' :: '[' :: l) = some S2.length := by
  induction S2 with
  | nil =>
    intro l _ _
    have ht : firstNonWsBracket (' ' :: '[' :: l) = true := rfl
    simp only [List.nil_append, findK, ht, if_pos]
    rfl
  | cons s S2' ih =>
    intro l hnb hlast
    have hfalse :
        firstNonWsBracket (s :: (S2' ++ ' ' :: '[' :: l)) = false := by
      have hX : s :: (S2' ++ ' ' :: '[' :: l) =
          (s :: S2') ++ ' ' :: '[' :: l := by simp
      rw [hX]
      apply fnwb_append_false
      · refine ⟨(s :: S2').getLast (List.cons_ne_nil s S2'), ?_, ?_⟩
        · exact List.getLast_mem _
        · exact hlast _ (List.getLast?_eq_getLast _ _)
      · exact hnb
    have hunfold : findK (s :: (S2' ++ ' ' :: '[' :: l)) =
        if firstNonWsBracket (s :: (S2' ++ ' ' :: '[' :: l)) = true
        then some 0
        else (findK (S2' ++ ' ' :: '[' :: l)).map (· + 1) := rfl
    have hlast2 : ∀ c, S2'.getLast? = some c → isWsJS c = false := by
      intro c hc
      cases S2' with
      | nil => cases hc
      | cons y ys =>
        apply hlast
        rw [List.getLast?_cons_cons]
        exact hc
    have hcons : findK ((s :: S2') ++ ' ' :: '[' :: l) =
        findK (s :: (S2' ++ ' ' :: '[' :: l)) := rfl
    rw [hcons, hunfold, if_neg (by rw [hfalse]; exact Bool.false_ne_true),
      ih l (fun c hc => hnb c (List.mem_cons_of_mem _ hc)) hlast2]
    rfl

/-- The summary the regex extracts from a well-formed remainder is the
trimmed summary text. -/
theorem summaryOf_encode (S : String) (l : List Char)
    (hnb : ∀ c ∈ S.data, c ≠ '[') (htrim : trimChars S.data = S.data) :
    summaryOf (S.data ++ ' ' :: '[' :: l) = S := by
  cases hS : S.data with
  | nil =>
    have hSempty : S = "" := by
      have := congrArg List.asString hS
      rwa [asString_data] at this
    rw [hSempty]
    rfl
  | cons s S2 =>
    have hnb2 : ∀ c ∈ S2, c ≠ '[' := by
      intro c hc
      apply hnb
      rw [hS]
      exact List.mem_cons_of_mem _ hc
    have hlastS := trimChars_getLast S.data htrim
    have hlast2 : ∀ c, S2.getLast? = some c → isWsJS c = false := by
      intro c hc
      cases S2 with
      | nil => cases hc
      | cons y ys =>
        apply hlastS
        rw [hS, List.getLast?_cons_cons]
        exact hc
    have hfk : findK (S2 ++ ' ' :: '[' :: l) = some S2.length :=
      findK_spec S2 l hnb2 hlast2
    have hunfold : summaryOf ((s :: S2) ++ ' ' :: '[' :: l) =
        (trimChars
          ((s :: (S2 ++ ' ' :: '[' :: l)).take (S2.length + 1))).asString := by
      have h1 : summaryOf (s :: (S2 ++ ' ' :: '[' :: l)) =
          match findK (S2 ++ ' ' :: '[' :: l) with
          | some j =>
            (trimChars
              ((s :: (S2 ++ ' ' :: '[' :: l)).take (j + 1))).asString
          | none =>
            (trimChars (s :: (S2 ++ ' ' :: '[' :: l))).asString := rfl
      have hcons : summaryOf ((s :: S2) ++ ' ' :: '[' :: l) =
          summaryOf (s :: (S2 ++ ' ' :: '[' :: l)) := rfl
      rw [hcons, h1, hfk]
    have htake : (s :: (S2 ++ ' ' :: '[' :: l)).take (S2.length + 1) =
        s :: S2 := by
      simp only [List.take_succ_cons]
      rw [List.take_left]
    have htrim2 : trimChars (s :: S2) = s :: S2 := by
      rw [← hS]
      exact htrim
    rw [hunfold, htake, htrim2, ← hS, asString_data]

/-- C1 amended: for every well-formed encoding `"K: S [A] [T] [P]"`
whose remainder contains no further `": "` (in particular the summary
neither contains `": "` nor ends in a colon), parse returns the full
record, mapping `"Unassigned"` to `"Non assigné"`; the key is the text
before the first `": "` and the summary is the text before the first
bracket, trimmed. -/
theorem parse_valid_encoding (K S A T P : String)
    (hK1 : hasColonSpace K.data = false)
    (hK2 : trimChars K.data = K.data)
    (hS1 : ∀ c ∈ S.data, c ≠ '[')
    (hS2 : trimChars S.data = S.data)
    (hR : hasColonSpace
      (S.data ++ ' ' :: '[' ::
        (A.data ++ ']' :: ' ' :: '[' ::
          (T.data ++ ']' :: ' ' :: '[' :: (P.data ++ [']'])))) = false)
    (hA1 : A.data ≠ []) (hA2 : ∀ c ∈ A.data, c ≠ ']')
    (hT1 : T.data ≠ []) (hT2 : ∀ c ∈ T.data, c ≠ ']')
    (hP1 : P.data ≠ []) (hP2 : ∀ c ∈ P.data, c ≠ ']') :
    parseTicketInfo (encodeTicket K S A T P) =
      some { key := K, summary := S
             assignee := if A = "Unassigned" then "Non assigné" else A
             issueType := T, priority := P } := by
  set R := S.data ++ ' ' :: '[' ::
      (A.data ++ ']' :: ' ' :: '[' ::
        (T.data ++ ']' :: ' ' :: '[' :: (P.data ++ [']']))) with hRdef
  have hdata : (encodeTicket K S A T P).data = K.data ++ ':' :: ' ' :: R := by
    rw [hRdef]
    show (K ++ ": " ++ S ++ " [" ++ A ++ "] [" ++ T ++ "] [" ++ P ++
      "]").data = _
    simp only [String.data_append]
    simp [List.append_assoc]
  have step1 : splitFirst (encodeTicket K S A T P).data =
      some (K.data, R) := by
    rw [hdata]
    exact splitFirst_append K.data R hK1
  have step2 : restPart R = R := by
    unfold restPart
    rw [splitFirst_eq_none hR]
  have hXS : ∀ c ∈ S.data ++ [' '], c ≠ '[' := by
    intro c hc
    rcases List.mem_append.mp hc with hc1 | hc1
    · exact hS1 c hc1
    · rcases List.mem_singleton.mp hc1 with rfl
      decide
  have step3 : scanB R none = [A.data, T.data, P.data] := by
    rw [hRdef]
    have h1 : S.data ++ ' ' :: '[' ::
        (A.data ++ ']' :: ' ' :: '[' ::
          (T.data ++ ']' :: ' ' :: '[' :: (P.data ++ [']']))) =
        (S.data ++ [' ']) ++ '[' ::
        (A.data ++ ']' :: ' ' :: '[' ::
          (T.data ++ ']' :: ' ' :: '[' :: (P.data ++ [']']))) := by
      simp
    rw [h1, scanB_skip _ _ hXS,
      scanB_bracket A.data _ hA1 hA2]
    have h2 : (' ' :: '[' ::
        (T.data ++ ']' :: ' ' :: '[' :: (P.data ++ [']']))) =
        [' '] ++ '[' ::
        (T.data ++ ']' :: ' ' :: '[' :: (P.data ++ [']'])) := by
      simp
    rw [h2, scanB_skip _ _ (by intro c hc; simp at hc; rw [hc]; decide),
      scanB_bracket T.data _ hT1 hT2]
    have h3 : (' ' :: '[' :: (P.data ++ [']'])) =
        [' '] ++ '[' :: (P.data ++ [']']) := by
      simp
    rw [h3, scanB_skip _ _ (by intro c hc; simp at hc; rw [hc]; decide),
      scanB_bracket P.data _ hP1 hP2]
    rfl
  have step4 : summaryOf R = S := by
    rw [hRdef]
    exact summaryOf_encode S _ hS1 hS2
  have hPne : P ≠ "" := by
    intro he
    apply hP1
    rw [he]
  simp only [parseTicketInfo, step1, step2, step3, step4]
  simp only [List.length_cons, List.length_nil]
  norm_num
  simp only [List.getD, assigneeOf, priorityOf, asString_data, hK2]
  simp [hPne]

/-- C1 witness: the amended theorem at a concrete well-formed
encoding. -/
theorem parse_valid_encoding_witness :
    hasColonSpace "PROJ-1".data = false ∧
    parseTicketInfo
        (encodeTicket "PROJ-1" "Fix login flow" "Alice" "Bug" "High") =
      some { key := "PROJ-1", summary := "Fix login flow",
             assignee := "Alice", issueType := "Bug",
             priority := "High" } := by
  constructor
  · decide
  · have h := parse_valid_encoding "PROJ-1" "Fix login flow" "Alice"
      "Bug" "High" (by decide) (by decide) (by decide) (by decide)
      (by decide) (by decide) (by decide) (by decide) (by decide)
      (by decide) (by decide)
    rw [h]
    decide

end JiraManager
